import Mathlib

set_option maxRecDepth 8192

/-!
Shallow embedding of the ai-resume-grader application core
(`app.py`, `app_simple.py`, `app_simple_backup.py`), together with
theorems checking the natural-language specification against it.

Keyword sets are `Finset String`; Python floats arising from the
percentage computation are modelled as rationals, with `round(x, n)`
modelled by round-half-to-even (Python 3 `round` semantics).
-/

namespace ResumeGrader

/-! ## Scorer

`app.py` (and identically `app_simple.py`):
  `matched_keywords = resume_keywords.intersection(jd_keywords)`
  `missing_keywords = jd_keywords - resume_keywords`
  `match_score = round(len(matched_keywords) / len(jd_keywords) * 100, 2) if jd_keywords else 0.0`
-/

def matched_keywords (resume_keywords jd_keywords : Finset String) : Finset String :=
  resume_keywords ∩ jd_keywords

def missing_keywords (resume_keywords jd_keywords : Finset String) : Finset String :=
  jd_keywords \ resume_keywords

/-- Python 3 `round` to an integer: round half to even (banker's rounding). -/
def roundHalfEven (q : ℚ) : ℤ :=
  let f := ⌊q⌋
  let r := q - (f : ℚ)
  if r < 1/2 then f
  else if (1:ℚ)/2 < r then f + 1
  else if f % 2 = 0 then f else f + 1

/-- Python 3 `round(q, d)` for non-negative `d`, on exact rationals. -/
def pyRound (q : ℚ) (d : ℕ) : ℚ :=
  (roundHalfEven (q * 10 ^ d) : ℚ) / 10 ^ d

/-- `app.py` line 892 / `app_simple.py` line 253. -/
def match_score (resume_keywords jd_keywords : Finset String) : ℚ :=
  if jd_keywords = ∅ then 0
  else pyRound (((matched_keywords resume_keywords jd_keywords).card : ℚ)
      / (jd_keywords.card : ℚ) * 100) 2

/-- `app_simple_backup.py` `calculate_match_score`: returns
`(round(match_percentage, 1), matched, missing)`, with an early
`(0.0, set(), set())` return when `jd_keywords` is empty. -/
def calculate_match_score (resume_keywords jd_keywords : Finset String) :
    ℚ × Finset String × Finset String :=
  if jd_keywords = ∅ then (0, ∅, ∅)
  else
    let matched := resume_keywords ∩ jd_keywords
    let missing := jd_keywords \ resume_keywords
    (pyRound ((matched.card : ℚ) / (jd_keywords.card : ℚ) * 100) 1, matched, missing)

/-! ## Theorems for C1, C2, C3 -/

/-- C1: the match score is `round(100 · |A ∩ B| / |B|, 2)` for non-empty `B`
and `0.0` for empty `B`, in which case matched and missing are also empty. -/
theorem match_score_correct (A B : Finset String) :
    match_score A B
      = (if B = ∅ then 0
         else pyRound (100 * ((matched_keywords A B).card : ℚ) / (B.card : ℚ)) 2)
    ∧ match_score A ∅ = 0
    ∧ matched_keywords A ∅ = ∅
    ∧ missing_keywords A ∅ = ∅ := by
  refine ⟨?_, ?_, ?_, ?_⟩
  · by_cases hB : B = ∅
    · simp [match_score, hB]
    · rw [match_score, if_neg hB, if_neg hB]
      congr 1
      ring
  · simp [match_score]
  · simp [matched_keywords]
  · simp [missing_keywords]

/-- C2: matched is contained in both input sets, matched and missing are
disjoint, and together they reconstruct the job-description set. -/
theorem matched_missing_algebra (A B : Finset String) :
    matched_keywords A B ⊆ A
    ∧ matched_keywords A B ⊆ B
    ∧ matched_keywords A B ∩ missing_keywords A B = ∅
    ∧ matched_keywords A B ∪ missing_keywords A B = B := by
  refine ⟨Finset.inter_subset_left, Finset.inter_subset_right, ?_, ?_⟩
  · ext x
    simp only [matched_keywords, missing_keywords, Finset.mem_inter, Finset.mem_sdiff,
      Finset.not_mem_empty, iff_false]
    tauto
  · ext x
    simp only [matched_keywords, missing_keywords, Finset.mem_union, Finset.mem_inter,
      Finset.mem_sdiff]
    tauto

/-- C3 (amended): the two scoring variants agree on the matched and missing
sets and on the empty-job-description case, but `app.py` rounds the
percentage to 2 decimal places while `calculate_match_score` rounds to 1. -/
theorem scoring_variants_agreement (A B : Finset String) :
    (calculate_match_score A B).2.1 = matched_keywords A B
    ∧ (calculate_match_score A B).2.2 = missing_keywords A B
    ∧ (calculate_match_score A B).1
        = (if B = ∅ then 0
           else pyRound (100 * ((matched_keywords A B).card : ℚ) / (B.card : ℚ)) 1)
    ∧ match_score A B
        = (if B = ∅ then 0
           else pyRound (100 * ((matched_keywords A B).card : ℚ) / (B.card : ℚ)) 2) := by
  by_cases hB : B = ∅
  · subst hB
    refine ⟨?_, ?_, ?_, ?_⟩ <;>
      simp [calculate_match_score, match_score, matched_keywords, missing_keywords]
  · refine ⟨?_, ?_, ?_, ?_⟩
    · simp [calculate_match_score, matched_keywords, if_neg hB]
    · simp [calculate_match_score, missing_keywords, if_neg hB]
    · rw [calculate_match_score, if_neg hB, if_neg hB]
      show pyRound _ 1 = _
      rw [matched_keywords]
      congr 1
      ring
    · rw [match_score, if_neg hB, if_neg hB]
      congr 1
      ring

/-- C3 counterexample: with resume keywords `{a}` and job-description
keywords `{a, b, c}`, `app.py` scores 33.33 while `calculate_match_score`
scores 33.3 — the variants are not score-equivalent. -/
theorem scoring_variants_score_differs :
    (calculate_match_score {"a"} {"a","b","c"}).1 ≠ match_score {"a"} {"a","b","c"} := by
  have hne : ({"a","b","c"} : Finset String) ≠ ∅ := by decide
  have hm : ({"a"} : Finset String) ∩ {"a","b","c"} = {"a"} := by decide
  have hc3 : (({"a","b","c"} : Finset String)).card = 3 := by decide
  have hc1 : (({"a"} : Finset String)).card = 1 := by decide
  rw [calculate_match_score, if_neg hne, match_score, matched_keywords, if_neg hne]
  show pyRound _ 1 ≠ _
  rw [hm, hc3, hc1]
  have e1 : pyRound ((1 : ℚ) / 3 * 100) 1 = 333/10 := by
    have hf : ⌊(1:ℚ)/3 * 100 * 10 ^ 1⌋ = 333 := by
      rw [Int.floor_eq_iff]
      norm_num
    rw [pyRound, roundHalfEven]
    rw [hf]
    norm_num
  have e2 : pyRound ((1 : ℚ) / 3 * 100) 2 = 3333/100 := by
    have hf : ⌊(1:ℚ)/3 * 100 * 10 ^ 2⌋ = 3333 := by
      rw [Int.floor_eq_iff]
      norm_num
    rw [pyRound, roundHalfEven]
    rw [hf]
    norm_num
  push_cast
  rw [e1, e2]
  norm_num

/-! ## Fallback keyword extraction

`extract_keywords_cached` (`app.py` lines 436-441, textually identical in
`app_simple.py` lines 146-150), degraded path taken when the NLP pipeline
is unavailable:
  `words = re.findall(regex for word-bounded runs of 3+ letters, text.lower())`
  `return set(word for word in words if len(word) >= min_length and word not in stopwords)`

On ASCII text, a match of that regex is a maximal run of word characters
(letters, digits, underscore) that consists solely of ASCII letters and has
length at least 3: the two word boundaries force maximality within word
characters, and the character class forces the letters-only content. The
pattern is compiled without `re.ASCII`, so on non-ASCII text the
Unicode-aware boundaries additionally treat non-ASCII letters as word
characters; the embedding below is the ASCII model and is asserted against
the program only on ASCII input.
-/

/-- Python regex `\w` restricted to the ASCII fragment: letter, digit or
underscore. Python's `\w` on `str` patterns is Unicode-aware; this ASCII
model agrees with it exactly on ASCII characters. -/
def isWordChar (c : Char) : Bool :=
  c.isAlpha || c.isDigit || c = '_'

/-- One `foldr` step of run-splitting: a matching character extends the
current run, a non-matching one closes it. -/
def runsStep (p : Char → Bool) (c : Char) (st : List Char × List (List Char)) :
    List Char × List (List Char) :=
  if p c then (c :: st.1, st.2)
  else ([], if st.1 = [] then st.2 else st.1 :: st.2)

/-- Scanning state: the run adjacent to the start, and the later runs. -/
def runsCore (p : Char → Bool) (l : List Char) : List Char × List (List Char) :=
  l.foldr (runsStep p) ([], [])

/-- Maximal runs of characters satisfying `p`, in order of occurrence. -/
def runsBy (p : Char → Bool) (l : List Char) : List (List Char) :=
  let st := runsCore p l
  if st.1 = [] then st.2 else st.1 :: st.2

/-- The matches of the fallback regex on a character list: maximal
word-character runs that are all-alphabetic of length at least 3. -/
def findallFallback (l : List Char) : List (List Char) :=
  (runsBy isWordChar l).filter (fun r => r.all Char.isAlpha && decide (3 ≤ r.length))

/-- The hard-coded stop-word list of the fallback path in `app.py`. -/
def fallback_stopwords : List String :=
  ["the", "and", "for", "are", "but", "not", "you", "all", "can", "had",
   "her", "was", "one", "our", "out", "day", "get", "has", "him", "his",
   "how", "man", "new", "now", "old", "see", "two", "who", "boy", "did",
   "its", "let", "put", "say", "she", "too", "use"]

/-- The fallback branch of `extract_keywords_cached`, in the ASCII model:
it agrees with the code exactly on ASCII input, while on non-ASCII text the
code's Unicode-aware word boundaries suppress additional matches. -/
def extract_keywords_fallback (text : String) (min_length : ℕ) : Finset String :=
  let words := (findallFallback (text.data.map Char.toLower)).map (fun r => String.mk r)
  (words.filter
    (fun w => decide (min_length ≤ w.length) && !(fallback_stopwords.contains w))).toFinset

/-- The claim's reading of the fallback tokenizer: maximal runs of 3 or more
alphabetic characters of the lowercased text (no word-boundary condition),
filtered by `min_length` and the stop-word list. Stated from the claim's
words, for comparison with `extract_keywords_fallback`. -/
def claim_keywords_fallback (text : String) (min_length : ℕ) : Finset String :=
  let words := ((runsBy Char.isAlpha (text.data.map Char.toLower)).filter
      (fun r => decide (3 ≤ r.length))).map (fun r => String.mk r)
  (words.filter
    (fun w => decide (min_length ≤ w.length) && !(fallback_stopwords.contains w))).toFinset

/-- `r` is a maximal run of `p`-characters inside `l`: non-empty, all of `r`
satisfies `p`, and the occurrence is bounded on each side by the string edge
or by a character failing `p`. -/
def IsMaxRun (p : Char → Bool) (l r : List Char) : Prop :=
  r ≠ [] ∧ (∀ c ∈ r, p c = true)
  ∧ ∃ pre post, l = pre ++ r ++ post
      ∧ (∀ c, pre.getLast? = some c → p c = false)
      ∧ (∀ c, post.head? = some c → p c = false)

/-! ### Characterization of `runsBy` by `IsMaxRun` -/

theorem runsCore_fst (p : Char → Bool) (l : List Char) :
    (runsCore p l).1 = l.takeWhile p := by
  induction l with
  | nil => rfl
  | cons c l ih =>
    show (runsStep p c (runsCore p l)).1 = _
    by_cases hc : p c
    · simp [runsStep, hc, List.takeWhile_cons, ih]
    · simp only [Bool.not_eq_true] at hc
      simp [runsStep, hc, List.takeWhile_cons]

theorem runsCore_all_run (p : Char → Bool) (l r : List Char)
    (hall : ∀ c ∈ r, p c = true) :
    runsCore p (r ++ l) = (r ++ (runsCore p l).1, (runsCore p l).2) := by
  induction r with
  | nil => simp
  | cons c r ih =>
    have hc : p c = true := hall c (by simp)
    have ih2 := ih (fun d hd => hall d (by simp [hd]))
    show runsStep p c (runsCore p (r ++ l)) = _
    rw [ih2]
    simp [runsStep, hc]

theorem head_dropWhile_false (p : Char → Bool) (l : List Char) :
    ∀ c, (l.dropWhile p).head? = some c → p c = false := by
  induction l with
  | nil => intro c h; simp at h
  | cons d l ih =>
    intro c h
    rw [List.dropWhile_cons] at h
    by_cases hd : p d
    · simp only [hd, if_true] at h
      exact ih c h
    · simp only [Bool.not_eq_true] at hd
      simp only [hd, Bool.false_eq_true, if_false, List.head?_cons, Option.some.injEq] at h
      rw [← h]
      exact hd

theorem takeWhile_nil_of_head (p : Char → Bool) (post : List Char)
    (hhead : ∀ c, post.head? = some c → p c = false) :
    post.takeWhile p = [] := by
  cases post with
  | nil => rfl
  | cons d post =>
    have hd := hhead d (by simp)
    simp [List.takeWhile_cons, hd]

theorem runsCore_snd_mem (p : Char → Bool) (l : List Char) :
    ∀ r ∈ (runsCore p l).2, r ≠ [] ∧ (∀ c ∈ r, p c = true)
      ∧ ∃ pre post, l = pre ++ r ++ post ∧ pre ≠ []
          ∧ (∀ c, pre.getLast? = some c → p c = false)
          ∧ (∀ c, post.head? = some c → p c = false) := by
  induction l with
  | nil =>
    intro r hr
    simp [runsCore] at hr
  | cons a l ih =>
    intro r hr
    have hstep : runsCore p (a :: l) = runsStep p a (runsCore p l) := rfl
    rw [hstep] at hr
    have extend : r ∈ (runsCore p l).2 →
        r ≠ [] ∧ (∀ c ∈ r, p c = true)
          ∧ ∃ pre post, a :: l = pre ++ r ++ post ∧ pre ≠ []
              ∧ (∀ c, pre.getLast? = some c → p c = false)
              ∧ (∀ c, post.head? = some c → p c = false) := by
      intro hmem
      obtain ⟨hne, hall, pre, post, hdec, hpre, hlast, hhead⟩ := ih r hmem
      obtain ⟨b, pre2, rfl⟩ := List.exists_cons_of_ne_nil hpre
      refine ⟨hne, hall, a :: b :: pre2, post, by simp [hdec], by simp, ?_, hhead⟩
      intro c hc
      rw [List.getLast?_cons_cons] at hc
      exact hlast c hc
    by_cases ha : p a
    · simp only [runsStep, ha, if_true] at hr
      exact extend hr
    · simp only [Bool.not_eq_true] at ha
      simp only [runsStep, ha, Bool.false_eq_true, if_false] at hr
      by_cases hfst : (runsCore p l).1 = []
      · rw [if_pos hfst] at hr
        exact extend hr
      · rw [if_neg hfst] at hr
        rcases List.mem_cons.mp hr with hr | hr
        · subst hr
          rw [runsCore_fst] at hfst ⊢
          refine ⟨hfst, fun c hc => List.mem_takeWhile_imp hc, [a], l.dropWhile p,
            by simp [List.takeWhile_append_dropWhile], by simp, ?_, head_dropWhile_false p l⟩
          intro c hc
          simp only [List.getLast?_singleton, Option.some.injEq] at hc
          rw [← hc]
          exact ha
        · exact extend hr

theorem runsCore_complete (p : Char → Bool) :
    ∀ (pre r post l : List Char), l = pre ++ r ++ post → r ≠ [] →
      (∀ c ∈ r, p c = true) →
      (∀ c, post.head? = some c → p c = false) →
      (∀ c, pre.getLast? = some c → p c = false) →
      (pre = [] → r ∈ runsBy p l) ∧ (pre ≠ [] → r ∈ (runsCore p l).2) := by
  intro pre
  induction pre with
  | nil =>
    intro r post l hdec hne hall hhead _
    refine ⟨fun _ => ?_, fun h => absurd rfl h⟩
    subst hdec
    simp only [List.nil_append]
    have hcore := runsCore_all_run p post r hall
    have hfst : (runsCore p post).1 = [] := by
      rw [runsCore_fst]
      exact takeWhile_nil_of_head p post hhead
    rw [runsBy, hcore, hfst, List.append_nil, if_neg hne]
    exact List.mem_cons_self r _
  | cons a pre2 ih =>
    intro r post l hdec hne hall hhead hlast
    refine ⟨fun h => by simp at h, fun _ => ?_⟩
    subst hdec
    have hstep : runsCore p (a :: pre2 ++ r ++ post) = runsStep p a (runsCore p (pre2 ++ r ++ post)) := rfl
    cases pre2 with
    | nil =>
      have hpa : p a = false := hlast a (by simp)
      have hcore := runsCore_all_run p post r hall
      have hfst : (runsCore p post).1 = [] := by
        rw [runsCore_fst]
        exact takeWhile_nil_of_head p post hhead
      rw [hstep]
      simp only [List.nil_append] at hcore ⊢
      rw [runsStep, hpa]
      simp only [Bool.false_eq_true, if_false, hcore, hfst, List.append_nil, if_neg hne]
      exact List.mem_cons_self r _
    | cons b pre3 =>
      have hmem : r ∈ (runsCore p (b :: pre3 ++ r ++ post)).2 := by
        refine (ih r post _ rfl hne hall hhead ?_).2 (by simp)
        intro c hc
        refine hlast c ?_
        rw [List.getLast?_cons_cons]
        exact hc
      rw [hstep, runsStep]
      by_cases hpa : p a
      · rw [if_pos hpa]
        exact hmem
      · simp only [Bool.not_eq_true] at hpa
        rw [hpa]
        simp only [Bool.false_eq_true, if_false]
        by_cases hfst : (runsCore p (b :: pre3 ++ r ++ post)).1 = []
        · rw [if_pos hfst]
          exact hmem
        · rw [if_neg hfst]
          exact List.mem_cons_of_mem _ hmem

/-- The scanning function `runsBy` returns exactly the maximal `p`-runs. -/
theorem mem_runsBy_iff (p : Char → Bool) (l r : List Char) :
    r ∈ runsBy p l ↔ IsMaxRun p l r := by
  constructor
  · intro hr
    rw [runsBy] at hr
    by_cases hfst : (runsCore p l).1 = []
    · rw [if_pos hfst] at hr
      obtain ⟨hne, hall, pre, post, hdec, _, hlast, hhead⟩ := runsCore_snd_mem p l r hr
      exact ⟨hne, hall, pre, post, hdec, hlast, hhead⟩
    · rw [if_neg hfst] at hr
      rcases List.mem_cons.mp hr with hr | hr
      · subst hr
        rw [runsCore_fst] at hfst ⊢
        refine ⟨hfst, fun c hc => List.mem_takeWhile_imp hc, [], l.dropWhile p,
          by simp [List.takeWhile_append_dropWhile], by simp, head_dropWhile_false p l⟩
      · obtain ⟨hne, hall, pre, post, hdec, _, hlast, hhead⟩ := runsCore_snd_mem p l r hr
        exact ⟨hne, hall, pre, post, hdec, hlast, hhead⟩
  · rintro ⟨hne, hall, pre, post, hdec, hlast, hhead⟩
    have h := runsCore_complete p pre r post l hdec hne hall hhead hlast
    cases pre with
    | nil => exact h.1 rfl
    | cons a pre2 =>
      have hmem := h.2 (by simp)
      rw [runsBy]
      by_cases hfst : (runsCore p l).1 = []
      · rw [if_pos hfst]
        exact hmem
      · rw [if_neg hfst]
        exact List.mem_cons_of_mem _ hmem

/-! ### Character-level helper lemmas -/

theorem toNat_ofNat_valid {n : ℕ} (h : n.isValidChar) : (Char.ofNat n).toNat = n := by
  simp only [Char.ofNat, h, dif_pos, Char.ofNatAux, Char.toNat]
  simp [UInt32.toNat]

theorem toLower_eq_self {c : Char} (h : c.isUpper = false) : c.toLower = c := by
  rw [Char.toLower, if_neg]
  intro hc
  rw [Char.isUpper] at h
  simp only [Bool.and_eq_false_iff, decide_eq_false_iff_not] at h
  rcases h with h | h
  · exact h hc.1
  · exact h hc.2

theorem isLower_toLower_of_isAlpha {c : Char} (h : (c.toLower).isAlpha = true) :
    (c.toLower).isLower = true := by
  by_cases hu : c.isUpper
  · have hv : (65 ≤ c.toNat ∧ c.toNat ≤ 90) := by
      rw [Char.isUpper] at hu
      simp only [Bool.and_eq_true, decide_eq_true_eq] at hu
      exact hu
    have hvalid : (c.toNat + 32).isValidChar := by
      left
      omega
    have htl : c.toLower = Char.ofNat (c.toNat + 32) := by
      rw [Char.toLower, if_pos ⟨hv.1, hv.2⟩]
    have htn := toNat_ofNat_valid hvalid
    rw [htl, Char.isLower]
    simp only [Bool.and_eq_true, decide_eq_true_eq]
    constructor
    · show 97 ≤ (Char.ofNat (c.toNat + 32)).toNat
      omega
    · show (Char.ofNat (c.toNat + 32)).toNat ≤ 122
      omega
  · have hu2 : c.isUpper = false := by simpa using hu
    rw [toLower_eq_self hu2] at h ⊢
    rw [Char.isAlpha] at h
    rcases Bool.or_eq_true_iff.mp h with h | h
    · exact absurd h (by simp [hu2])
    · exact h

theorem string_mk_data (w : String) : String.mk w.data = w := by
  cases w
  rfl

theorem mem_map_mk (l : List (List Char)) (w : String) :
    w ∈ l.map (fun r => String.mk r) ↔ w.data ∈ l := by
  rw [List.mem_map]
  constructor
  · rintro ⟨r, hr, rfl⟩
    exact hr
  · intro h
    exact ⟨w.data, h, string_mk_data w⟩

/-! ### Theorems for C8, C9, C10 -/

/-- Membership in the fallback keyword set, characterized by maximal runs. -/
theorem mem_extract_keywords_fallback (text : String) (min_length : ℕ) (w : String) :
    w ∈ extract_keywords_fallback text min_length ↔
      IsMaxRun isWordChar (text.data.map Char.toLower) w.data
      ∧ w.data.all Char.isAlpha = true
      ∧ 3 ≤ w.data.length ∧ min_length ≤ w.data.length
      ∧ w ∉ fallback_stopwords := by
  rw [extract_keywords_fallback]
  simp only [List.mem_toFinset, List.mem_filter, mem_map_mk, findallFallback,
    Bool.and_eq_true, decide_eq_true_eq, mem_runsBy_iff]
  constructor
  · rintro ⟨⟨hrun, halpha, hlen3⟩, hminlen, hstop⟩
    refine ⟨hrun, halpha, hlen3, hminlen, ?_⟩
    simpa using hstop
  · rintro ⟨hrun, halpha, hlen3, hminlen, hstop⟩
    refine ⟨⟨hrun, halpha, hlen3⟩, hminlen, ?_⟩
    simpa using hstop

/-- C8 (amended): on ASCII input text — the domain where the ASCII word
model coincides with the regex's Unicode-aware `\b`/`\w` — the fallback
result is exactly the set of maximal word-character runs of the lowercased
text that consist solely of 3 or more alphabetic characters (the regex word
boundaries exclude letter-runs adjacent to digits or underscores), have
length at least `min_length`, and are not stop-words; every element is a
non-empty lowercase alphabetic string, and the result is non-empty whenever
a qualifying run exists. -/
theorem fallback_keywords_spec (text : String) (min_length : ℕ)
    (hascii : ∀ c ∈ text.data, c.toNat < 128) :
    (∀ w : String,
      w ∈ extract_keywords_fallback text min_length ↔
        IsMaxRun isWordChar (text.data.map Char.toLower) w.data
        ∧ w.data.all Char.isAlpha = true
        ∧ 3 ≤ w.data.length ∧ min_length ≤ w.data.length
        ∧ w ∉ fallback_stopwords)
    ∧ (∀ w ∈ extract_keywords_fallback text min_length,
        w.data ≠ [] ∧ ∀ c ∈ w.data, c.isLower = true ∧ c.isAlpha = true)
    ∧ (∀ w : String,
        (IsMaxRun isWordChar (text.data.map Char.toLower) w.data
          ∧ w.data.all Char.isAlpha = true
          ∧ 3 ≤ w.data.length ∧ min_length ≤ w.data.length
          ∧ w ∉ fallback_stopwords) →
        extract_keywords_fallback text min_length ≠ ∅) := by
  refine ⟨mem_extract_keywords_fallback text min_length, ?_, ?_⟩
  · intro w hw
    obtain ⟨hrun, halpha, -⟩ := (mem_extract_keywords_fallback text min_length w).mp hw
    obtain ⟨hne, -, pre, post, hdec, -, -⟩ := hrun
    refine ⟨hne, ?_⟩
    intro c hc
    have hmem : c ∈ text.data.map Char.toLower := by
      rw [hdec]
      simp [hc]
    obtain ⟨c0, -, rfl⟩ := List.mem_map.mp hmem
    have halc : (Char.toLower c0).isAlpha = true := by
      rw [List.all_eq_true] at halpha
      exact halpha _ hc
    exact ⟨isLower_toLower_of_isAlpha halc, halc⟩
  · intro w hcond
    exact Finset.ne_empty_of_mem ((mem_extract_keywords_fallback text min_length w).mpr hcond)

/-- C8 witness: instantiating the characterization at input `"Python sql"`
with `min_length = 3` and the keyword `"python"`. -/
theorem fallback_keywords_spec_witness :
    IsMaxRun isWordChar ("Python sql".data.map Char.toLower) "python".data
    ∧ ("python".data ≠ [] ∧ ∀ c ∈ "python".data, c.isLower = true ∧ c.isAlpha = true) := by
  have h := fallback_keywords_spec "Python sql" 3 (by decide)
  have hmem : "python" ∈ extract_keywords_fallback "Python sql" 3 := by decide
  exact ⟨((h.1 "python").mp hmem).1, h.2.1 "python" hmem⟩

/-- C8 counterexample: on `"python3"` the code's regex (with word
boundaries) finds nothing, while "maximal runs of 3 or more alphabetic
characters" would yield `python`. -/
theorem fallback_regex_not_alpha_runs :
    extract_keywords_fallback "python3" 3 ≠ claim_keywords_fallback "python3" 3 := by
  decide

/-- Whitespace-joined concatenation of a list of words, as a character list. -/
def joinWords : List String → List Char
  | [] => []
  | [w] => w.data
  | w :: ws => w.data ++ ' ' :: joinWords ws

theorem runsBy_joinWords (p : Char → Bool) (hsp : p ' ' = false) (ws : List String)
    (hw : ∀ w ∈ ws, w.data ≠ [] ∧ ∀ c ∈ w.data, p c = true) :
    runsBy p (joinWords ws) = ws.map (fun w => w.data) := by
  induction ws with
  | nil => rfl
  | cons w ws ih =>
    obtain ⟨hne, hall⟩ := hw w (by simp)
    cases ws with
    | nil =>
      show runsBy p w.data = [w.data]
      have hcore : runsCore p (w.data ++ []) = (w.data ++ (runsCore p []).1, (runsCore p []).2) :=
        runsCore_all_run p [] w.data hall
      rw [List.append_nil] at hcore
      rw [runsBy, hcore]
      simp [runsCore, if_neg hne]
    | cons w2 ws2 =>
      show runsBy p (w.data ++ ' ' :: joinWords (w2 :: ws2)) = _
      have hcore := runsCore_all_run p (' ' :: joinWords (w2 :: ws2)) w.data hall
      have hsep : runsCore p (' ' :: joinWords (w2 :: ws2))
          = ([], runsBy p (joinWords (w2 :: ws2))) := by
        show runsStep p ' ' (runsCore p (joinWords (w2 :: ws2))) = _
        rw [runsStep, hsp]
        simp only [Bool.false_eq_true, if_false]
        rfl
      rw [runsBy, hcore, hsep]
      simp only [List.append_nil, if_neg hne]
      rw [ih (fun v hv => hw v (by simp [hv]))]
      rfl

theorem mem_joinWords (ws : List String) (c : Char) (hc : c ∈ joinWords ws) :
    c = ' ' ∨ ∃ w ∈ ws, c ∈ w.data := by
  induction ws with
  | nil => simp [joinWords] at hc
  | cons w ws ih =>
    cases ws with
    | nil =>
      right
      exact ⟨w, by simp, hc⟩
    | cons w2 ws2 =>
      rw [show joinWords (w :: w2 :: ws2) = w.data ++ ' ' :: joinWords (w2 :: ws2) from rfl] at hc
      rcases List.mem_append.mp hc with hc | hc
      · exact Or.inr ⟨w, by simp, hc⟩
      · rcases List.mem_cons.mp hc with hc | hc
        · exact Or.inl hc
        · rcases ih hc with hc | ⟨v, hv, hcv⟩
          · exact Or.inl hc
          · exact Or.inr ⟨v, by simp [hv], hcv⟩

/-- C9: idempotence of the fallback normalizer — on a whitespace-joined list
of already-normalized words (non-empty, lowercase alphabetic, length at
least `max 3 min_length`, not stop-words) it returns exactly that set of
words. -/
theorem fallback_idempotent (ws : List String) (min_length : ℕ)
    (hw : ∀ w ∈ ws, w.data ≠ []
        ∧ (∀ c ∈ w.data, c.isAlpha = true ∧ c.isLower = true)
        ∧ 3 ≤ w.data.length ∧ min_length ≤ w.data.length
        ∧ w ∉ fallback_stopwords) :
    extract_keywords_fallback (String.mk (joinWords ws)) min_length = ws.toFinset := by
  have hlow : (String.mk (joinWords ws)).data.map Char.toLower = joinWords ws := by
    show (joinWords ws).map Char.toLower = joinWords ws
    have : ∀ c ∈ joinWords ws, Char.toLower c = c := by
      intro c hc
      rcases mem_joinWords ws c hc with rfl | ⟨w, hwmem, hcw⟩
      · rfl
      · have hc2 := (hw w hwmem).2.1 c hcw
        refine toLower_eq_self ?_
        rw [Char.isUpper]
        have := hc2.2
        rw [Char.isLower] at this
        simp only [Bool.and_eq_true, decide_eq_true_eq] at this
        simp only [Bool.and_eq_false_iff, decide_eq_false_iff_not]
        right
        intro h90
        have h97n : (97 : ℕ) ≤ c.val.toNat := this.1
        have h90n : c.val.toNat ≤ (90 : ℕ) := h90
        omega
    calc (joinWords ws).map Char.toLower = (joinWords ws).map id :=
          List.map_congr_left this
      _ = joinWords ws := List.map_id _
  have hruns : runsBy isWordChar (joinWords ws) = ws.map (fun w => w.data) := by
    refine runsBy_joinWords isWordChar (by decide) ws ?_
    intro w hwmem
    refine ⟨(hw w hwmem).1, ?_⟩
    intro c hc
    have := (hw w hwmem).2.1 c hc
    rw [isWordChar, this.1]
    rfl
  rw [extract_keywords_fallback]
  simp only [hlow, findallFallback, hruns]
  have hfilter1 : (ws.map (fun w => w.data)).filter
      (fun r => r.all Char.isAlpha && decide (3 ≤ r.length)) = ws.map (fun w => w.data) := by
    rw [List.filter_eq_self]
    intro r hr
    obtain ⟨w, hwmem, rfl⟩ := List.mem_map.mp hr
    simp only [Bool.and_eq_true, decide_eq_true_eq, List.all_eq_true]
    exact ⟨fun c hc => ((hw w hwmem).2.1 c hc).1, (hw w hwmem).2.2.1⟩
  rw [hfilter1]
  have hmapmk : (ws.map (fun w => w.data)).map (fun r => String.mk r) = ws := by
    rw [List.map_map]
    calc ws.map (fun w => String.mk w.data) = ws.map id :=
          List.map_congr_left (fun w _ => string_mk_data w)
      _ = ws := List.map_id _
  rw [hmapmk]
  have hfilter2 : ws.filter
      (fun w => decide (min_length ≤ w.length) && !(fallback_stopwords.contains w)) = ws := by
    rw [List.filter_eq_self]
    intro w hwmem
    simp only [Bool.and_eq_true, decide_eq_true_eq, Bool.not_eq_true']
    refine ⟨(hw w hwmem).2.2.2.1, ?_⟩
    have := (hw w hwmem).2.2.2.2
    simpa using this
  rw [hfilter2]

/-- C9 witness: joining `python` and `sql` and re-extracting returns
exactly that two-element set. -/
theorem fallback_idempotent_witness :
    extract_keywords_fallback (String.mk (joinWords ["python", "sql"])) 3
      = (["python", "sql"] : List String).toFinset :=
  fallback_idempotent ["python", "sql"] 3 (by decide)

/-- C10: in the fallback path, any `min_length ≤ 3` gives the same result
as `min_length = 3`, because every regex match already has length ≥ 3. -/
theorem fallback_min_length_irrelevant (text : String) (min_length : ℕ)
    (h : min_length ≤ 3) :
    extract_keywords_fallback text min_length = extract_keywords_fallback text 3 := by
  rw [extract_keywords_fallback, extract_keywords_fallback]
  congr 1
  apply List.filter_congr
  intro w hwmem
  obtain ⟨r, hr, rfl⟩ := List.mem_map.mp hwmem
  have h3 : 3 ≤ r.length := by
    rw [findallFallback, List.mem_filter] at hr
    have := hr.2
    simp only [Bool.and_eq_true, decide_eq_true_eq] at this
    exact this.2
  have hml : min_length ≤ r.length := le_trans h h3
  simp [h3, hml]

/-- C10 witness: `min_length = 2` and `min_length = 3` agree on a
concrete text. -/
theorem fallback_min_length_irrelevant_witness :
    extract_keywords_fallback "Python3 and SQL skills" 2
      = extract_keywords_fallback "Python3 and SQL skills" 3 :=
  fallback_min_length_irrelevant "Python3 and SQL skills" 2 (by norm_num)

/-! ## Plain-text extraction (UTF-8 decoding)

`extract_text_from_txt` (`app.py` lines 422-429) runs
`file_bytes.decode("utf-8", errors="ignore")`. The decoder below is a
byte-at-a-time UTF-8 automaton with CPython's handling of ill-formed input:
each maximal ill-formed subpart contributes `err` to the output — `[]` for
`errors="ignore"`, U+FFFD for `errors="replace"`. The narrowed
first-continuation ranges for the E0/ED/F0/F4 lead bytes exclude overlong
encodings and surrogates, as CPython's decoder does.
-/

def utf8LeadInfo (b : ℕ) : Option (ℕ × ℕ × ℕ × ℕ) :=
  if 0xC2 ≤ b ∧ b ≤ 0xDF then some (1, b - 0xC0, 0x80, 0xBF)
  else if b = 0xE0 then some (2, 0, 0xA0, 0xBF)
  else if 0xE1 ≤ b ∧ b ≤ 0xEC then some (2, b - 0xE0, 0x80, 0xBF)
  else if b = 0xED then some (2, 0xD, 0x80, 0x9F)
  else if 0xEE ≤ b ∧ b ≤ 0xEF then some (2, b - 0xE0, 0x80, 0xBF)
  else if b = 0xF0 then some (3, 0, 0x90, 0xBF)
  else if 0xF1 ≤ b ∧ b ≤ 0xF3 then some (3, b - 0xF0, 0x80, 0xBF)
  else if b = 0xF4 then some (3, 4, 0x80, 0x8F)
  else none

def utf8Run (err : List Char) : Option (ℕ × ℕ × ℕ × ℕ) → List ℕ → List Char
  | none, [] => []
  | some _, [] => err
  | none, b :: rest =>
    if b < 0x80 then Char.ofNat b :: utf8Run err none rest
    else match utf8LeadInfo b with
      | some st2 => utf8Run err (some st2) rest
      | none => err ++ utf8Run err none rest
  | some (need, acc, lo, hi), b :: rest =>
    if lo ≤ b ∧ b ≤ hi then
      if need ≤ 1 then Char.ofNat (acc * 64 + (b - 0x80)) :: utf8Run err none rest
      else utf8Run err (some (need - 1, acc * 64 + (b - 0x80), 0x80, 0xBF)) rest
    else
      err ++ (if b < 0x80 then Char.ofNat b :: utf8Run err none rest
              else match utf8LeadInfo b with
                | some st2 => utf8Run err (some st2) rest
                | none => err ++ utf8Run err none rest)

def utf8EncodeChar (c : Char) : List ℕ :=
  let n := c.toNat
  if n < 0x80 then [n]
  else if n < 0x800 then [0xC0 + n / 64, 0x80 + n % 64]
  else if n < 0x10000 then [0xE0 + n / 4096, 0x80 + n / 64 % 64, 0x80 + n % 64]
  else [0xF0 + n / 262144, 0x80 + n / 4096 % 64, 0x80 + n / 64 % 64, 0x80 + n % 64]

theorem char_toNat_valid (c : Char) : c.toNat < 0xD800 ∨ (0xDFFF < c.toNat ∧ c.toNat < 0x110000) :=
  c.valid

theorem utf8Run_encodeChar (err : List Char) (c : Char) (l : List ℕ) :
    utf8Run err none (utf8EncodeChar c ++ l) = c :: utf8Run err none l := by
  have hv := char_toNat_valid c
  have hofn := Char.ofNat_toNat c
  set n := c.toNat with hn
  rw [utf8EncodeChar]
  by_cases h1 : n < 0x80
  · rw [if_pos h1]
    show utf8Run err none (n :: l) = _
    rw [utf8Run, if_pos h1, hn, hofn]
  · rw [if_neg h1]
    by_cases h2 : n < 0x800
    · rw [if_pos h2]
      show utf8Run err none ((0xC0 + n / 64) :: (0x80 + n % 64) :: l) = _
      rw [utf8Run, if_neg (by omega)]
      have hlead : utf8LeadInfo (0xC0 + n / 64) = some (1, n / 64, 0x80, 0xBF) := by
        rw [utf8LeadInfo, if_pos (by omega)]
        have e : 0xC0 + n / 64 - 0xC0 = n / 64 := by omega
        rw [e]
      rw [hlead]
      show utf8Run err (some (1, n / 64, 0x80, 0xBF)) ((0x80 + n % 64) :: l) = _
      rw [utf8Run, if_pos (by omega), if_pos (by omega)]
      have : n / 64 * 64 + (0x80 + n % 64 - 0x80) = n := by omega
      rw [this, hn, hofn]
    · rw [if_neg h2]
      by_cases h3 : n < 0x10000
      · rw [if_pos h3]
        show utf8Run err none ((0xE0 + n / 4096) :: (0x80 + n / 64 % 64) :: (0x80 + n % 64) :: l) = _
        rw [utf8Run, if_neg (by omega)]
        have hq : n / 4096 ≤ 15 := by omega
        have hlead : ∃ lo hi, utf8LeadInfo (0xE0 + n / 4096) = some (2, n / 4096, lo, hi)
            ∧ lo ≤ 0x80 + n / 64 % 64 ∧ 0x80 + n / 64 % 64 ≤ hi := by
          by_cases hq0 : n / 4096 = 0
          · refine ⟨0xA0, 0xBF, ?_, by omega, by omega⟩
            rw [utf8LeadInfo]
            repeat rw [if_neg (by omega)]
            rw [if_pos (by omega), hq0]
          · by_cases hq13 : n / 4096 = 13
            · refine ⟨0x80, 0x9F, ?_, by omega, ?_⟩
              · rw [utf8LeadInfo]
                repeat rw [if_neg (by omega)]
                rw [if_pos (by omega), hq13]
              · rcases hv with hv | hv
                · omega
                · omega
            · by_cases hq12 : n / 4096 ≤ 12
              · refine ⟨0x80, 0xBF, ?_, by omega, by omega⟩
                rw [utf8LeadInfo]
                repeat rw [if_neg (by omega)]
                rw [if_pos (by omega)]
                have e : 0xE0 + n / 4096 - 0xE0 = n / 4096 := by omega
                rw [e]
              · refine ⟨0x80, 0xBF, ?_, by omega, by omega⟩
                rw [utf8LeadInfo]
                repeat rw [if_neg (by omega)]
                rw [if_pos (by omega)]
                have e : 0xE0 + n / 4096 - 0xE0 = n / 4096 := by omega
                rw [e]
        obtain ⟨lo, hi, hlead, hlo, hhi⟩ := hlead
        rw [hlead]
        show utf8Run err (some (2, n / 4096, lo, hi)) ((0x80 + n / 64 % 64) :: (0x80 + n % 64) :: l) = _
        rw [utf8Run, if_pos ⟨hlo, hhi⟩, if_neg (by omega)]
        show utf8Run err (some (1, n / 4096 * 64 + (0x80 + n / 64 % 64 - 0x80), 0x80, 0xBF))
            ((0x80 + n % 64) :: l) = _
        rw [utf8Run, if_pos (by omega), if_pos (by omega)]
        have : (n / 4096 * 64 + (0x80 + n / 64 % 64 - 0x80)) * 64 + (0x80 + n % 64 - 0x80) = n := by
          omega
        rw [this, hn, hofn]
      · rw [if_neg h3]
        show utf8Run err none
            ((0xF0 + n / 262144) :: (0x80 + n / 4096 % 64) :: (0x80 + n / 64 % 64)
              :: (0x80 + n % 64) :: l) = _
        rw [utf8Run, if_neg (by omega)]
        have hn17 : n < 0x110000 := by rcases hv with hv | hv <;> omega
        have hq : n / 262144 ≤ 4 := by omega
        have hlead : ∃ lo hi, utf8LeadInfo (0xF0 + n / 262144) = some (3, n / 262144, lo, hi)
            ∧ lo ≤ 0x80 + n / 4096 % 64 ∧ 0x80 + n / 4096 % 64 ≤ hi := by
          by_cases hq0 : n / 262144 = 0
          · refine ⟨0x90, 0xBF, ?_, by omega, by omega⟩
            rw [utf8LeadInfo]
            repeat rw [if_neg (by omega)]
            rw [if_pos (by omega), hq0]
          · by_cases hq4 : n / 262144 = 4
            · refine ⟨0x80, 0x8F, ?_, by omega, by omega⟩
              rw [utf8LeadInfo]
              repeat rw [if_neg (by omega)]
              rw [if_pos (by omega), hq4]
            · refine ⟨0x80, 0xBF, ?_, by omega, by omega⟩
              rw [utf8LeadInfo]
              repeat rw [if_neg (by omega)]
              rw [if_pos (by omega)]
              have e : 0xF0 + n / 262144 - 0xF0 = n / 262144 := by omega
              rw [e]
        obtain ⟨lo, hi, hlead, hlo, hhi⟩ := hlead
        rw [hlead]
        show utf8Run err (some (3, n / 262144, lo, hi))
            ((0x80 + n / 4096 % 64) :: (0x80 + n / 64 % 64) :: (0x80 + n % 64) :: l) = _
        rw [utf8Run, if_pos ⟨hlo, hhi⟩, if_neg (by omega)]
        show utf8Run err (some (2, n / 262144 * 64 + (0x80 + n / 4096 % 64 - 0x80), 0x80, 0xBF))
            ((0x80 + n / 64 % 64) :: (0x80 + n % 64) :: l) = _
        rw [utf8Run, if_pos (by omega), if_neg (by omega)]
        show utf8Run err (some (1, (n / 262144 * 64 + (0x80 + n / 4096 % 64 - 0x80)) * 64
            + (0x80 + n / 64 % 64 - 0x80), 0x80, 0xBF)) ((0x80 + n % 64) :: l) = _
        rw [utf8Run, if_pos (by omega), if_pos (by omega)]
        have : ((n / 262144 * 64 + (0x80 + n / 4096 % 64 - 0x80)) * 64
            + (0x80 + n / 64 % 64 - 0x80)) * 64 + (0x80 + n % 64 - 0x80) = n := by
          omega
        rw [this, hn, hofn]

/-- UTF-8 encoding of a character (always a Unicode scalar value in Lean). -/
def utf8Encode (s : List Char) : List ℕ :=
  (s.map utf8EncodeChar).flatten

/-- `app.py` `extract_text_from_txt`: decode as UTF-8 with `errors="ignore"`
(ill-formed subparts contribute nothing). Total: defined on every byte list. -/
def extract_text_from_txt (file_bytes : List ℕ) : String :=
  String.mk (utf8Run [] none file_bytes)

/-- The claim's reading: decode as UTF-8 with undecodable byte sequences
replaced (U+FFFD), i.e. `errors="replace"`. Stated from the claim's words,
for comparison with `extract_text_from_txt`. -/
def utf8_decode_replace (file_bytes : List ℕ) : String :=
  String.mk (utf8Run [Char.ofNat 0xFFFD] none file_bytes)

theorem utf8Run_encode_append (err : List Char) (s : List Char) (l : List ℕ) :
    utf8Run err none (utf8Encode s ++ l) = s ++ utf8Run err none l := by
  induction s with
  | nil => rfl
  | cons c s ih =>
    have he : utf8Encode (c :: s) = utf8EncodeChar c ++ utf8Encode s := by
      simp [utf8Encode]
    rw [he, List.append_assoc, utf8Run_encodeChar, ih]
    rfl

/-- C4 (amended): plain-text extraction is the UTF-8 decoding with
undecodable byte sequences dropped (`errors="ignore"`), not replaced; it is
total (never raises), inverts UTF-8 encoding on well-formed input, and
silently skips an interposed invalid byte. -/
theorem txt_extraction_spec (s t : List Char) :
    extract_text_from_txt (utf8Encode s) = String.mk s
    ∧ extract_text_from_txt (utf8Encode s ++ 0xFF :: utf8Encode t)
        = String.mk (s ++ t) := by
  have h0 : utf8Run [] none ([] : List ℕ) = [] := by rw [utf8Run]
  constructor
  · rw [extract_text_from_txt, show utf8Encode s = utf8Encode s ++ [] by simp,
      utf8Run_encode_append, h0, List.append_nil]
  · rw [extract_text_from_txt, utf8Run_encode_append]
    have hff : utf8Run [] none (0xFF :: utf8Encode t) = utf8Run [] none (utf8Encode t) := by
      rw [utf8Run, if_neg (by omega)]
      have hl : utf8LeadInfo 0xFF = none := by decide
      rw [hl]
      rfl
    rw [hff, show utf8Encode t = utf8Encode t ++ [] by simp, utf8Run_encode_append, h0,
      List.append_nil]

/-- C4 counterexample: on the bytes `41 FF`, `errors="ignore"` gives `"A"`
while decoding "with undecodable byte sequences replaced" gives `A` followed
by U+FFFD — the code drops ill-formed input rather than replacing it. -/
theorem txt_extraction_not_replace :
    extract_text_from_txt [0x41, 0xFF] ≠ utf8_decode_replace [0x41, 0xFF] := by
  decide

/-! ## PDF extraction (C6) -/

/-- Outcome of the `try` block of `extract_text_from_pdf` (`app.py` lines
390-404): either `fitz` opens the stream and yields every page's text, or
the parser raises after some prefix of pages was already concatenated (an
unparseable stream raises at `fitz.open`, i.e. with the empty prefix). -/
inductive FitzOutcome where
  | ok (pages : List String)
  | raised (pages : List String) (msg : String)

/-- `extract_text_from_pdf`: concatenates page text in page order; an
exception is caught locally and reported through `st.error` ("Failed to
read PDF: ..."), and the text accumulated so far is returned. Result:
(extracted text, reported error messages). Total — no exception escapes. -/
def extract_text_from_pdf : FitzOutcome → String × List String
  | .ok pages => (String.join pages, [])
  | .raised pages msg => (String.join pages, ["Failed to read PDF: " ++ msg])

/-- Python `str.strip()`: drop whitespace from both ends. Whitespace is
modelled as the ASCII whitespace characters; the theorem below applies this
only at the empty string, where the model is exact. -/
def pyStrip (s : String) : String :=
  String.mk (((s.data.dropWhile Char.isWhitespace).reverse.dropWhile Char.isWhitespace).reverse)

/-- `app.py` lines 857-867: `if not resume_text.strip():` reports a
processing error and the score computation is skipped. -/
def scoring_skipped (resume_text : String) : Bool :=
  pyStrip resume_text == ""

/-- C6: a byte stream the PDF parser cannot parse yields the empty string,
the failure is reported (one user-visible error message), no exception
propagates (the extractor is a total function of the parse outcome), and
downstream score computation is skipped on the empty text. -/
theorem pdf_corrupt_fails_soft (msg : String) :
    (extract_text_from_pdf (.raised [] msg)).1 = ""
    ∧ (extract_text_from_pdf (.raised [] msg)).2 = ["Failed to read PDF: " ++ msg]
    ∧ scoring_skipped (extract_text_from_pdf (.raised [] msg)).1 = true :=
  ⟨rfl, rfl, rfl⟩

/-! ## DOCX extraction (C7) -/

/-- `extract_text_from_docx` (`app.py` lines 406-420): `text = ""`, then
`text += paragraph.text + "\n"` for each paragraph in document order. -/
def extract_text_from_docx (paragraphs : List String) : String :=
  paragraphs.foldl (fun text p => text ++ p ++ "\n") ""

/-- The claim's reading: paragraph texts newline-joined (separator between
lines, no trailing newline). Stated from the claim's words, for comparison
with `extract_text_from_docx`. -/
def docx_newline_joined : List String → String
  | [] => ""
  | [p] => p
  | p :: ps => p ++ "\n" ++ docx_newline_joined ps

theorem docx_foldl_acc (ps : List String) (acc : String) :
    ps.foldl (fun text p => text ++ p ++ "\n") acc
      = acc ++ ps.foldl (fun text p => text ++ p ++ "\n") "" := by
  induction ps generalizing acc with
  | nil => simp
  | cons p ps ih =>
    rw [List.foldl_cons, List.foldl_cons, ih, ih ("" ++ p ++ "\n")]
    simp [String.append_assoc]

/-- C7 (amended): the extracted DOCX text is the paragraph texts in document
order each followed by a newline — the newline join of the claim plus a
trailing newline when the document is non-empty — and on the three-paragraph
document `Skills: / Python / SQL` the fallback-derived keyword set contains
`python` and `sql`. -/
theorem docx_extraction_spec (paragraphs : List String) :
    extract_text_from_docx paragraphs
      = docx_newline_joined paragraphs ++ (if paragraphs = [] then "" else "\n")
    ∧ "python" ∈ extract_keywords_fallback
        (extract_text_from_docx ["Skills:", "Python", "SQL"]) 3
    ∧ "sql" ∈ extract_keywords_fallback
        (extract_text_from_docx ["Skills:", "Python", "SQL"]) 3 := by
  refine ⟨?_, by decide, by decide⟩
  induction paragraphs with
  | nil => rfl
  | cons p ps ih =>
    rw [extract_text_from_docx, List.foldl_cons, docx_foldl_acc]
    rw [extract_text_from_docx] at ih
    cases ps with
    | nil =>
      show ("" ++ p ++ "\n") ++ "" = docx_newline_joined [p] ++ _
      simp [docx_newline_joined]
    | cons q ps2 =>
      rw [ih]
      show ("" ++ p ++ "\n") ++ (docx_newline_joined (q :: ps2) ++ _)
        = docx_newline_joined (p :: q :: ps2) ++ _
      show _ = (p ++ "\n" ++ docx_newline_joined (q :: ps2)) ++ _
      simp [String.append_assoc]

/-- C7 counterexample: a single-paragraph document shows the code output is
newline-terminated, not newline-joined: `a` extracts to `"a\n"`, not `"a"`. -/
theorem docx_not_newline_joined :
    extract_text_from_docx ["a"] ≠ docx_newline_joined ["a"] := by
  decide

/-! ## Display lists and export report (C5)

`app.py`: `matched_list = sorted(list(matched_keywords))` (line 1071),
`missing_list = sorted(list(missing_keywords))` (line 1184);
the plain-text report (lines 1123-1141) renders
`', '.join(sorted(matched_keywords))` and
`', '.join(sorted(list(missing_keywords)[:20]))` — the missing enumeration
is truncated to 20 elements BEFORE sorting. A Python `set` has no
specified iteration order, so `list(s)` is modelled as an arbitrary
duplicate-free enumeration `order` of the set.
-/

/-- Python string comparison: lexicographic by code point, `≤` version. -/
def lexLe (a b : List Char) : Bool :=
  match a, b with
  | [], _ => true
  | _ :: _, [] => false
  | c :: cs, d :: ds =>
    if c.toNat < d.toNat then true
    else if d.toNat < c.toNat then false
    else lexLe cs ds

def pyLeStr (a b : String) : Prop :=
  lexLe a.data b.data = true

instance : DecidableRel pyLeStr :=
  fun a b => instDecidableEqBool (lexLe a.data b.data) true

theorem lexLe_total (a b : List Char) : lexLe a b = true ∨ lexLe b a = true := by
  induction a generalizing b with
  | nil => exact Or.inl rfl
  | cons x xs ih =>
    cases b with
    | nil => exact Or.inr rfl
    | cons y ys =>
      rw [lexLe, lexLe]
      by_cases hxy : x.toNat < y.toNat
      · exact Or.inl (by rw [if_pos hxy])
      · by_cases hyx : y.toNat < x.toNat
        · exact Or.inr (by rw [if_pos hyx])
        · rw [if_neg hxy, if_neg hyx, if_neg hyx, if_neg hxy]
          exact ih ys

theorem lexLe_trans {a b c : List Char} (hab : lexLe a b = true)
    (hbc : lexLe b c = true) : lexLe a c = true := by
  induction a generalizing b c with
  | nil => rfl
  | cons x xs ih =>
    cases b with
    | nil => exact absurd hab (by rw [lexLe]; simp)
    | cons y ys =>
      cases c with
      | nil => exact absurd hbc (by rw [lexLe]; simp)
      | cons z zs =>
        rw [lexLe] at hab hbc ⊢
        by_cases hxy : x.toNat < y.toNat
        · by_cases hyz : y.toNat < z.toNat
          · rw [if_pos (by omega)]
          · by_cases hzy : z.toNat < y.toNat
            · rw [if_neg hyz, if_pos hzy] at hbc
              exact absurd hbc (by simp)
            · rw [if_pos (by omega)]
        · by_cases hyx : y.toNat < x.toNat
          · rw [if_neg hxy, if_pos hyx] at hab
            exact absurd hab (by simp)
          · rw [if_neg hxy, if_neg hyx] at hab
            by_cases hyz : y.toNat < z.toNat
            · rw [if_pos (by omega)]
            · by_cases hzy : z.toNat < y.toNat
              · rw [if_neg hyz, if_pos hzy] at hbc
                exact absurd hbc (by simp)
              · rw [if_neg hyz, if_neg hzy] at hbc
                rw [if_neg (by omega), if_neg (by omega)]
                exact ih hab hbc

theorem char_toNat_inj {c d : Char} (h : c.toNat = d.toNat) : c = d := by
  rw [← Char.ofNat_toNat c, ← Char.ofNat_toNat d, h]

theorem lexLe_antisymm {a b : List Char} (hab : lexLe a b = true)
    (hba : lexLe b a = true) : a = b := by
  induction a generalizing b with
  | nil =>
    cases b with
    | nil => rfl
    | cons y ys => exact absurd hba (by rw [lexLe]; simp)
  | cons x xs ih =>
    cases b with
    | nil => exact absurd hab (by rw [lexLe]; simp)
    | cons y ys =>
      rw [lexLe] at hab hba
      by_cases hxy : x.toNat < y.toNat
      · rw [if_neg (by omega), if_pos hxy] at hba
        exact absurd hba (by simp)
      · by_cases hyx : y.toNat < x.toNat
        · rw [if_neg hxy, if_pos hyx] at hab
          exact absurd hab (by simp)
        · rw [if_neg hxy, if_neg hyx] at hab
          rw [if_neg hyx, if_neg hxy] at hba
          rw [ih hab hba, char_toNat_inj (by omega : x.toNat = y.toNat)]

instance : IsTotal String pyLeStr :=
  ⟨fun a b => lexLe_total a.data b.data⟩

instance : IsTrans String pyLeStr :=
  ⟨fun _ _ _ h1 h2 => lexLe_trans h1 h2⟩

instance : IsAntisymm String pyLeStr :=
  ⟨fun a b h1 h2 => by
    have h := lexLe_antisymm h1 h2
    rw [← string_mk_data a, ← string_mk_data b, h]⟩

/-- Python `sorted` on strings: the unique ascending reordering (Python's
sort is stable, but duplicate-free string lists make stability vacuous). -/
def pySorted (l : List String) : List String :=
  List.insertionSort pyLeStr l

/-- `sorted(list(matched_keywords))`, `order` enumerating the set. -/
def matched_list (order : List String) : List String :=
  pySorted order

/-- `sorted(list(missing_keywords))`, `order` enumerating the set. -/
def missing_list (order : List String) : List String :=
  pySorted order

/-- `sorted(list(missing_keywords)[:20])` of the report: truncation to 20
happens before sorting, on the arbitrary enumeration. -/
def report_missing (order : List String) : List String :=
  pySorted (order.take 20)

/-- Python `', '.join`. -/
def joinComma : List String → String
  | [] => ""
  | [w] => w
  | w :: ws => w ++ ", " ++ joinComma ws

/-- The plain-text report f-string of `app.py` lines 1123-1141. The
timestamp, the rendering of the score float and the career level arrive as
opaque strings; the four counts are the sizes of the respective sets
(`matched_order`/`missing_order` enumerate the matched/missing sets). -/
def analysis_summary (generated score_text career_level : String)
    (resume_count jd_count : ℕ)
    (matched_order missing_order : List String) : String :=
  "AI Resume Grader Analysis Report\nGenerated: " ++ generated
  ++ "\n\n" ++ "MATCH SCORE: " ++ score_text ++ "%"
  ++ "\n\nSTATISTICS:\n" ++ "- Resume Keywords: " ++ toString resume_count
  ++ "\n" ++ "- Job Requirements: " ++ toString jd_count
  ++ "\n" ++ "- Matched Keywords: " ++ toString matched_order.length
  ++ "\n" ++ "- Missing Keywords: " ++ toString missing_order.length
  ++ "\n\n" ++ "MATCHED SKILLS:\n" ++ joinComma (pySorted matched_order)
  ++ "\n\n" ++ "MISSING SKILLS:\n" ++ joinComma (report_missing missing_order)
  ++ "\n\n" ++ "CAREER LEVEL: " ++ career_level ++ "\n"

/-- `part` occurs as a contiguous substring. -/
def containsSub (whole part : String) : Prop :=
  ∃ a b, whole = a ++ part ++ b

theorem pySorted_sorted (l : List String) : List.Sorted pyLeStr (pySorted l) :=
  List.sorted_insertionSort pyLeStr l

theorem pySorted_eq_of_toFinset_eq {l1 l2 : List String}
    (h1 : l1.Nodup) (h2 : l2.Nodup) (h : l1.toFinset = l2.toFinset) :
    pySorted l1 = pySorted l2 := by
  have hperm : (pySorted l1).Perm (pySorted l2) :=
    ((List.perm_insertionSort pyLeStr l1).trans
      (List.perm_of_nodup_nodup_toFinset_eq h1 h2 h)).trans
      (List.perm_insertionSort pyLeStr l2).symm
  exact List.eq_of_perm_of_sorted hperm (pySorted_sorted l1) (pySorted_sorted l2)

/-- C5 (amended): every presented keyword list is lexicographically
ascending, and the full matched/missing display lists are determined by
the underlying set alone; the report contains the score text, the four
counts, the comma-joined matched list and the comma-joined missing list of
at most 20 keywords — but the report's missing list is the sort of an
arbitrary 20-element prefix of the set enumeration, so it is determined by
the set only when the missing set has at most 20 elements. -/
theorem display_and_report_spec (generated score_text career_level : String)
    (resume_count jd_count : ℕ) (matched_order missing_order : List String) :
    List.Sorted pyLeStr (matched_list matched_order)
    ∧ List.Sorted pyLeStr (missing_list missing_order)
    ∧ List.Sorted pyLeStr (report_missing missing_order)
    ∧ (report_missing missing_order).length ≤ 20
    ∧ (∀ order2 : List String, matched_order.Nodup → order2.Nodup →
        matched_order.toFinset = order2.toFinset →
        matched_list matched_order = matched_list order2)
    ∧ (∀ order2 : List String, missing_order.Nodup → order2.Nodup →
        missing_order.toFinset = order2.toFinset → missing_order.length ≤ 20 →
        report_missing missing_order = report_missing order2)
    ∧ containsSub
        (analysis_summary generated score_text career_level resume_count jd_count
          matched_order missing_order)
        ("MATCH SCORE: " ++ score_text ++ "%")
    ∧ containsSub
        (analysis_summary generated score_text career_level resume_count jd_count
          matched_order missing_order)
        ("- Resume Keywords: " ++ toString resume_count)
    ∧ containsSub
        (analysis_summary generated score_text career_level resume_count jd_count
          matched_order missing_order)
        ("- Job Requirements: " ++ toString jd_count)
    ∧ containsSub
        (analysis_summary generated score_text career_level resume_count jd_count
          matched_order missing_order)
        ("- Matched Keywords: " ++ toString matched_order.length)
    ∧ containsSub
        (analysis_summary generated score_text career_level resume_count jd_count
          matched_order missing_order)
        ("- Missing Keywords: " ++ toString missing_order.length)
    ∧ containsSub
        (analysis_summary generated score_text career_level resume_count jd_count
          matched_order missing_order)
        ("MATCHED SKILLS:\n" ++ joinComma (matched_list matched_order))
    ∧ containsSub
        (analysis_summary generated score_text career_level resume_count jd_count
          matched_order missing_order)
        ("MISSING SKILLS:\n" ++ joinComma (report_missing missing_order)) := by
  refine ⟨pySorted_sorted _, pySorted_sorted _, pySorted_sorted _, ?_, ?_, ?_,
    ?_, ?_, ?_, ?_, ?_, ?_, ?_⟩
  · rw [report_missing, pySorted]
    have hlen := (List.perm_insertionSort pyLeStr (missing_order.take 20)).length_eq
    rw [hlen, List.length_take]
    omega
  · intro order2 h1 h2 h
    exact pySorted_eq_of_toFinset_eq h1 h2 h
  · intro order2 h1 h2 h hlen
    have hperm := List.perm_of_nodup_nodup_toFinset_eq h1 h2 h
    have hlen2 : order2.length ≤ 20 := by
      rw [← hperm.length_eq]
      exact hlen
    rw [report_missing, report_missing, List.take_of_length_le hlen,
      List.take_of_length_le hlen2]
    exact pySorted_eq_of_toFinset_eq h1 h2 h
  · exact ⟨"AI Resume Grader Analysis Report\nGenerated: " ++ generated ++ "\n\n",
      "\n\nSTATISTICS:\n" ++ "- Resume Keywords: " ++ toString resume_count
      ++ "\n" ++ "- Job Requirements: " ++ toString jd_count
      ++ "\n" ++ "- Matched Keywords: " ++ toString matched_order.length
      ++ "\n" ++ "- Missing Keywords: " ++ toString missing_order.length
      ++ "\n\n" ++ "MATCHED SKILLS:\n" ++ joinComma (pySorted matched_order)
      ++ "\n\n" ++ "MISSING SKILLS:\n" ++ joinComma (report_missing missing_order)
      ++ "\n\n" ++ "CAREER LEVEL: " ++ career_level ++ "\n",
      by simp only [analysis_summary, String.append_assoc]⟩
  · exact ⟨"AI Resume Grader Analysis Report\nGenerated: " ++ generated
      ++ "\n\n" ++ "MATCH SCORE: " ++ score_text ++ "%" ++ "\n\nSTATISTICS:\n",
      "\n" ++ "- Job Requirements: " ++ toString jd_count
      ++ "\n" ++ "- Matched Keywords: " ++ toString matched_order.length
      ++ "\n" ++ "- Missing Keywords: " ++ toString missing_order.length
      ++ "\n\n" ++ "MATCHED SKILLS:\n" ++ joinComma (pySorted matched_order)
      ++ "\n\n" ++ "MISSING SKILLS:\n" ++ joinComma (report_missing missing_order)
      ++ "\n\n" ++ "CAREER LEVEL: " ++ career_level ++ "\n",
      by simp only [analysis_summary, String.append_assoc]⟩
  · exact ⟨"AI Resume Grader Analysis Report\nGenerated: " ++ generated
      ++ "\n\n" ++ "MATCH SCORE: " ++ score_text ++ "%" ++ "\n\nSTATISTICS:\n"
      ++ "- Resume Keywords: " ++ toString resume_count ++ "\n",
      "\n" ++ "- Matched Keywords: " ++ toString matched_order.length
      ++ "\n" ++ "- Missing Keywords: " ++ toString missing_order.length
      ++ "\n\n" ++ "MATCHED SKILLS:\n" ++ joinComma (pySorted matched_order)
      ++ "\n\n" ++ "MISSING SKILLS:\n" ++ joinComma (report_missing missing_order)
      ++ "\n\n" ++ "CAREER LEVEL: " ++ career_level ++ "\n",
      by simp only [analysis_summary, String.append_assoc]⟩
  · exact ⟨"AI Resume Grader Analysis Report\nGenerated: " ++ generated
      ++ "\n\n" ++ "MATCH SCORE: " ++ score_text ++ "%" ++ "\n\nSTATISTICS:\n"
      ++ "- Resume Keywords: " ++ toString resume_count ++ "\n"
      ++ "- Job Requirements: " ++ toString jd_count ++ "\n",
      "\n" ++ "- Missing Keywords: " ++ toString missing_order.length
      ++ "\n\n" ++ "MATCHED SKILLS:\n" ++ joinComma (pySorted matched_order)
      ++ "\n\n" ++ "MISSING SKILLS:\n" ++ joinComma (report_missing missing_order)
      ++ "\n\n" ++ "CAREER LEVEL: " ++ career_level ++ "\n",
      by simp only [analysis_summary, String.append_assoc]⟩
  · exact ⟨"AI Resume Grader Analysis Report\nGenerated: " ++ generated
      ++ "\n\n" ++ "MATCH SCORE: " ++ score_text ++ "%" ++ "\n\nSTATISTICS:\n"
      ++ "- Resume Keywords: " ++ toString resume_count ++ "\n"
      ++ "- Job Requirements: " ++ toString jd_count ++ "\n"
      ++ "- Matched Keywords: " ++ toString matched_order.length ++ "\n",
      "\n\n" ++ "MATCHED SKILLS:\n" ++ joinComma (pySorted matched_order)
      ++ "\n\n" ++ "MISSING SKILLS:\n" ++ joinComma (report_missing missing_order)
      ++ "\n\n" ++ "CAREER LEVEL: " ++ career_level ++ "\n",
      by simp only [analysis_summary, String.append_assoc]⟩
  · exact ⟨"AI Resume Grader Analysis Report\nGenerated: " ++ generated
      ++ "\n\n" ++ "MATCH SCORE: " ++ score_text ++ "%" ++ "\n\nSTATISTICS:\n"
      ++ "- Resume Keywords: " ++ toString resume_count ++ "\n"
      ++ "- Job Requirements: " ++ toString jd_count ++ "\n"
      ++ "- Matched Keywords: " ++ toString matched_order.length ++ "\n"
      ++ "- Missing Keywords: " ++ toString missing_order.length ++ "\n\n",
      "\n\n" ++ "MISSING SKILLS:\n" ++ joinComma (report_missing missing_order)
      ++ "\n\n" ++ "CAREER LEVEL: " ++ career_level ++ "\n",
      by simp only [analysis_summary, matched_list, String.append_assoc]⟩
  · exact ⟨"AI Resume Grader Analysis Report\nGenerated: " ++ generated
      ++ "\n\n" ++ "MATCH SCORE: " ++ score_text ++ "%" ++ "\n\nSTATISTICS:\n"
      ++ "- Resume Keywords: " ++ toString resume_count ++ "\n"
      ++ "- Job Requirements: " ++ toString jd_count ++ "\n"
      ++ "- Matched Keywords: " ++ toString matched_order.length ++ "\n"
      ++ "- Missing Keywords: " ++ toString missing_order.length ++ "\n\n"
      ++ "MATCHED SKILLS:\n" ++ joinComma (pySorted matched_order) ++ "\n\n",
      "\n\n" ++ "CAREER LEVEL: " ++ career_level ++ "\n",
      by simp only [analysis_summary, String.append_assoc]⟩

/-- C5 witness: instantiating the spec at two-element enumerations. -/
theorem display_and_report_spec_witness :
    matched_list ["b", "a"] = matched_list ["a", "b"]
    ∧ report_missing ["b", "a"] = report_missing ["a", "b"] := by
  have h := display_and_report_spec "ts" "50.0" "Mid Level" 2 2 ["b", "a"] ["b", "a"]
  exact ⟨h.2.2.2.2.1 ["a", "b"] (by decide) (by decide) (by decide),
    h.2.2.2.2.2.1 ["a", "b"] (by decide) (by decide) (by decide) (by decide)⟩

/-- C5 counterexample: two enumerations of the same 21-element missing set
give different report lists — the report's up-to-20 missing keywords are
not determined by the missing set, because truncation precedes sorting. -/
theorem report_missing_not_reproducible :
    ((["a","b","c","d","e","f","g","h","i","j","k","l","m","n","o","p","q","r","s","t","u"]
        : List String).toFinset
      = (["a","b","c","d","e","f","g","h","i","j","k","l","m","n","o","p","q","r","s","t","u"]
        : List String).reverse.toFinset)
    ∧ report_missing
        ["a","b","c","d","e","f","g","h","i","j","k","l","m","n","o","p","q","r","s","t","u"]
      ≠ report_missing
        (["a","b","c","d","e","f","g","h","i","j","k","l","m","n","o","p","q","r","s","t","u"]
          : List String).reverse := by
  constructor
  · decide
  · decide

end ResumeGrader
